import Mathlib

/-!
# Verification of the rwfs chunk-rewrite engine

A shallow embedding of `src/index.ts` (`reWriteFileSync`, `getChunks`) and
`src/types.ts` (`UpdateResult`, `UpdateRule`, `ChunkContext`,
`ReWriteFileSyncOptions`).  Text is modelled as `List Char` (a JS string is a
sequence of code units); file I/O is abstracted to "content in, written
content out"; the debug logging block (lines 34-141) only writes to the
console and does not affect the written text, so it is omitted.  A JS
`TypeError` raised by invoking a non-callable caller-supplied value is
modelled with `Except`.
-/

namespace Rwfs

/-- Whether `pat` occurs at the very start of `l` (matching a literal pattern
at the current scan position, as `String.prototype.split` and
`String.prototype.replaceAll` do). -/
def begins : List Char → List Char → Bool
  | _, [] => true
  | [], _ :: _ => false
  | c :: cs, p :: ps => c == p && begins cs ps

/-- Prepend a character to the first piece of a split result. -/
def consHead (c : Char) : List (List Char) → List (List Char)
  | [] => [[c]]
  | x :: xs => (c :: x) :: xs

/-- Whether `pat` occurs as a contiguous segment of `l` (the JS
`String.prototype.includes` test): an occurrence starts at the current
position or somewhere in the tail. -/
def containsSeg (pat : List Char) : List Char → Bool
  | [] => pat.isEmpty
  | c :: cs => begins (c :: cs) pat || containsSeg pat cs

/-- Fuel-indexed worker for `jsSplit`.  The fuel bounds the number of scan
steps; `jsSplit` supplies `content.length`, which is always enough because
every step consumes at least one character. -/
def splitGo (sep : List Char) : Nat → List Char → List (List Char)
  | 0, content => [content]
  | fuel + 1, content =>
    if !sep.isEmpty && begins content sep then
      [] :: splitGo sep fuel (content.drop sep.length)
    else
      match content with
      | [] => [[]]
      | c :: cs => consHead c (splitGo sep fuel cs)

/-- Model of `String.prototype.split` with a literal separator: split at every
leftmost non-overlapping occurrence of `sep`, discarding the separator.
Faithful for non-empty separators, the only case the engine uses
(`options.separator || "\n"` never yields an empty separator); for an empty
separator this model returns `[content]`. -/
def jsSplit (sep content : List Char) : List (List Char) :=
  splitGo sep content.length content

/-- Model of `Array.prototype.join` on an array of strings: concatenate the
pieces with `sep` between consecutive pieces. -/
def jsJoin (sep : List Char) : List (List Char) → List Char
  | [] => []
  | [x] => x
  | x :: y :: ys => x ++ sep ++ jsJoin sep (y :: ys)

/-- Model of `String.prototype.replaceAll` with a literal non-empty pattern:
every leftmost non-overlapping occurrence of `pat` is replaced by `rep`,
equivalently the `pat`-split pieces rejoined with `rep`. -/
def jsReplaceAll (pat rep content : List Char) : List Char :=
  jsJoin rep (jsSplit pat content)

/-- `UpdateResult` (src/types.ts): an update returns either replacement text
or an object.  `obj true` is the documented deletion marker
`{ deleteChunk: true }`; `obj false` stands for any other object value a
caller-supplied update might return. -/
inductive UpdateResult where
  | str (s : List Char)
  | obj (deleteChunk : Bool)
deriving DecidableEq

/-- JS truthiness of an update result, as tested by `Boolean(chunk)` in the
`removeEmpty` filter (src/index.ts line 187): a string is falsy iff empty;
objects are always truthy. -/
def truthy : UpdateResult → Bool
  | .str s => !s.isEmpty
  | .obj _ => true

/-- The test `typeof chunk === "object"` of the final filter
(src/index.ts line 189). -/
def isObjectTyped : UpdateResult → Bool
  | .str _ => false
  | .obj _ => true

/-- String content of a result.  Object results are removed before joining,
so the `obj` case is never reached by `reWriteFileSync`. -/
def strOf : UpdateResult → List Char
  | .str s => s
  | .obj _ => []

/-- `ChunkContext` (src/types.ts). -/
structure ChunkContext where
  chunk : List Char
  index : Nat
  prevChunk : Option (List Char)
  nextChunk : Option (List Char)
deriving DecidableEq

/-- `createContext` (src/index.ts lines 144-149), built from the current
(possibly reversed) chunk sequence.  The source indexes `chunks[idx]`,
`chunks[idx - 1]`, `chunks[idx + 1]` only at in-bounds positions; `getD`
makes those reads total. -/
def createContext (chunks : List (List Char)) (idx : Nat) : ChunkContext where
  chunk := chunks.getD idx []
  index := idx
  prevChunk := if 0 < idx then some (chunks.getD (idx - 1) []) else none
  nextChunk := if idx < chunks.length - 1 then some (chunks.getD (idx + 1) []) else none

/-- A caller-supplied JS value sitting in a `constraint` slot: either an
actual function, or some non-callable value. -/
inductive ConstraintVal where
  | fn (f : ChunkContext → List Char → Bool)
  | notFn

/-- A caller-supplied JS value sitting in an `update` slot. -/
inductive UpdateVal where
  | fn (f : ChunkContext → List Char → UpdateResult)
  | notFn

/-- The runtime error JS raises when a non-callable value is invoked. -/
inductive JsError where
  | typeError
deriving DecidableEq

/-- Invoking a constraint value: calling a non-function raises a `TypeError`. -/
def callConstraint : ConstraintVal → ChunkContext → List Char → Except JsError Bool
  | .fn f, ctx, sep => .ok (f ctx sep)
  | .notFn, _, _ => .error .typeError

/-- Invoking an update value: calling a non-function raises a `TypeError`. -/
def callUpdate : UpdateVal → ChunkContext → List Char → Except JsError UpdateResult
  | .fn f, ctx, sep => .ok (f ctx sep)
  | .notFn, _, _ => .error .typeError

/-- `UpdateRule` (src/types.ts): one constraint/update pair.  The slots hold
caller-supplied values which may be non-callable. -/
structure UpdateRule where
  constraint : ConstraintVal
  update : UpdateVal

/-- The inner rule loop of multi-rule mode (src/index.ts lines 157-165):
`newChunk` starts as `context.chunk`; a rule fires when
`typeof constraint === "function" && constraint(context, separator)`; firing
replaces `newChunk` with `update(context, separator)` — the update is invoked
unguarded, so a non-callable update raises, while a non-callable constraint
merely skips the rule.  Every rule receives the same per-index `context`. -/
def applyRules (context : ChunkContext) (sep : List Char) :
    List UpdateRule → UpdateResult → Except JsError UpdateResult
  | [], newChunk => .ok newChunk
  | rule :: rest, newChunk =>
    match rule.constraint with
    | .fn f =>
      if f context sep then do
        let r ← callUpdate rule.update context sep
        applyRules context sep rest r
      else
        applyRules context sep rest newChunk
    | .notFn => applyRules context sep rest newChunk

/-- Multi-rule mode (src/index.ts lines 153-167): `chunks.map((_, idx) => …)`
running the rule loop at each index, in index order. -/
def multiGo (rules : List UpdateRule) (chunks : List (List Char)) (sep : List Char) :
    List Nat → Except JsError (List UpdateResult)
  | [] => .ok []
  | idx :: rest => do
    let context := createContext chunks idx
    let r ← applyRules context sep rules (.str context.chunk)
    let tail ← multiGo rules chunks sep rest
    .ok (r :: tail)

/-- Multi-rule evaluation over all chunk indices. -/
def multiModeEval (rules : List UpdateRule) (chunks : List (List Char))
    (sep : List Char) : Except JsError (List UpdateResult) :=
  multiGo rules chunks sep (List.range chunks.length)

/-- Single-rule mode (src/index.ts lines 168-179): `chunks.map((_, idx) => …)`
with the mutable `bailed` flag threaded in index order.  `options.constraint`
and `options.update` are invoked directly, without any `typeof` guard.  On a
match the flag becomes `shouldBailOnFirstMatch && true`. -/
def singleGo (constraint : ConstraintVal) (update : UpdateVal) (shouldBail : Bool)
    (chunks : List (List Char)) (sep : List Char) :
    List Nat → Bool → Except JsError (List UpdateResult)
  | [], _ => .ok []
  | idx :: rest, bailed =>
    let context := createContext chunks idx
    if bailed then do
      let tail ← singleGo constraint update shouldBail chunks sep rest bailed
      .ok (.str context.chunk :: tail)
    else do
      let b ← callConstraint constraint context sep
      if b then do
        let r ← callUpdate update context sep
        let tail ← singleGo constraint update shouldBail chunks sep rest (shouldBail && true)
        .ok (r :: tail)
      else do
        let tail ← singleGo constraint update shouldBail chunks sep rest bailed
        .ok (.str context.chunk :: tail)

/-- Single-rule evaluation over all chunk indices, starting not bailed. -/
def singleModeEval (constraint : ConstraintVal) (update : UpdateVal)
    (shouldBail : Bool) (chunks : List (List Char)) (sep : List Char) :
    Except JsError (List UpdateResult) :=
  singleGo constraint update shouldBail chunks sep (List.range chunks.length) false

/-- Outcome of the option-shape dispatch (src/index.ts lines 153, 168, 180):
the `updates` key holding an array is checked first and selects multi-rule
mode; otherwise the presence of both `constraint` and `update` keys selects
single-rule mode; otherwise the configuration is malformed and content passes
through unchanged. -/
inductive RuleConfig where
  | multiple (updates : List UpdateRule)
  | single (constraint : ConstraintVal) (update : UpdateVal)
  | malformed

/-- `ReWriteFileSyncOptions` (src/types.ts), restricted to the options that
influence the written text (`encoding` selects the byte codec of the external
read/write collaborator, and `debug` / `debugOutputLimit` only produce console
output).  `separator := none` models an absent key and `some []` the empty
string — both falsy in `options.separator || "\n"`.  `bailOnFirstMatch` keeps
its presence and value, matching
`("bailOnFirstMatch" in options && options.bailOnFirstMatch === true)`. -/
structure ReWriteFileSyncOptions where
  separator : Option (List Char) := none
  removeEmpty : Bool := false
  bailOnFirstMatch : Option Bool := none
  invert : Bool := false
  preserveInvertedOrder : Bool := false
  config : RuleConfig

/-- `options.separator || "\n"` (src/index.ts line 18). -/
def effectiveSeparator : Option (List Char) → List Char
  | some s => if s.isEmpty then ['\n'] else s
  | none => ['\n']

/-- The output-assembly filters (src/index.ts lines 185-189): when
`removeEmpty` is set, first drop falsy results; then always drop every result
of object type. -/
def assembleChunks (removeEmpty : Bool) (updatedChunks : List UpdateResult) :
    List UpdateResult :=
  (if removeEmpty then updatedChunks.filter truthy else updatedChunks).filter
    (fun chunk => !isObjectTyped chunk)

/-- The final stage (src/index.ts lines 185-197): assembly filters, the
un-reversal when chunks were inverted without `preserveInvertedOrder`, and the
join with the separator that produces the written text. -/
def writeStage (separator : List Char)
    (removeEmpty invert preserveInvertedOrder : Bool)
    (updatedChunks : List UpdateResult) : List Char :=
  let finalChunks := assembleChunks removeEmpty updatedChunks
  let finalChunks :=
    if invert && !preserveInvertedOrder then finalChunks.reverse else finalChunks
  jsJoin separator (finalChunks.map strOf)

/-- `reWriteFileSync` (src/index.ts lines 12-204) as a pure function from the
file content read at `path` to the text written back (or the JS error the call
raises).  Splitting, optional reversal, option-shape dispatch, per-chunk
evaluation, assembly filters, optional un-reversal and the final join follow
the source line by line. -/
def reWriteFileSync (fileContent : List Char) (options : ReWriteFileSyncOptions) :
    Except JsError (List Char) :=
  let separator := effectiveSeparator options.separator
  let shouldBail := options.bailOnFirstMatch == some true
  let chunks :=
    if options.invert then (jsSplit separator fileContent).reverse
    else jsSplit separator fileContent
  do
    let updatedChunks ←
      match options.config with
      | .multiple updates => multiModeEval updates chunks separator
      | .single constraint update =>
          singleModeEval constraint update shouldBail chunks separator
      | .malformed => .ok (chunks.map .str)
    .ok (writeStage separator options.removeEmpty options.invert
          options.preserveInvertedOrder updatedChunks)

/-- `getChunks` (src/index.ts lines 207-213): tag every separator occurrence
with the marker token `"lofo--"` placed immediately before it, then split on
the token.  With `normalize` set, literal newlines are first replaced by
`"LF"`. -/
def getChunks (content sep : List Char) (normalize : Bool) : List (List Char) :=
  let token := ['l', 'o', 'f', 'o', '-', '-']
  let normalizedContent :=
    if normalize then jsReplaceAll ['\n'] ['L', 'F'] content else content
  jsSplit token (jsReplaceAll sep (token ++ sep) normalizedContent)

/-! ## Lemmas about the split / join models -/

theorem consHead_ne_nil (c : Char) (L : List (List Char)) : consHead c L ≠ [] := by
  cases L <;> simp [consHead]

theorem consHead_cons (c : Char) (x : List Char) (xs : List (List Char)) :
    consHead c (x :: xs) = (c :: x) :: xs := rfl

theorem splitGo_ne_nil (sep : List Char) :
    ∀ fuel content, splitGo sep fuel content ≠ [] := by
  intro fuel content
  cases fuel with
  | zero => simp [splitGo]
  | succ f =>
    simp only [splitGo]
    by_cases hguard : (!sep.isEmpty && begins content sep) = true
    · rw [if_pos hguard]; simp
    · rw [if_neg hguard]
      cases content with
      | nil => simp
      | cons c cs => exact consHead_ne_nil _ _

theorem begins_nil_false (sep : List Char) (hsep : sep ≠ []) :
    begins [] sep = false := by
  cases sep with
  | nil => exact absurd rfl hsep
  | cons s ss => rfl

theorem begins_length : ∀ (p l : List Char), begins l p = true → p.length ≤ l.length := by
  intro p
  induction p with
  | nil => intro l _; simp
  | cons q ps ih =>
    intro l h
    cases l with
    | nil => simp [begins] at h
    | cons c cs =>
      simp only [begins, Bool.and_eq_true] at h
      simpa using Nat.succ_le_succ (ih cs h.2)

theorem begins_eq_append :
    ∀ (p l : List Char), begins l p = true → p ++ l.drop p.length = l := by
  intro p
  induction p with
  | nil => intro l _; simp
  | cons q ps ih =>
    intro l h
    cases l with
    | nil => simp [begins] at h
    | cons c cs =>
      simp only [begins, Bool.and_eq_true, beq_iff_eq] at h
      obtain ⟨h1, h2⟩ := h
      subst h1
      simpa using ih cs h2

theorem begins_append_self : ∀ (p b : List Char), begins (p ++ b) p = true := by
  intro p
  induction p with
  | nil => intro b; cases b <;> rfl
  | cons q ps ih => intro b; simp [begins, ih]

theorem sep_length_pos (sep : List Char) (hsep : sep ≠ []) : 1 ≤ sep.length := by
  cases sep with
  | nil => exact absurd rfl hsep
  | cons s ss => simp

theorem splitGo_fuel (sep : List Char) :
    ∀ fuel₁ fuel₂ content, content.length ≤ fuel₁ → content.length ≤ fuel₂ →
      splitGo sep fuel₁ content = splitGo sep fuel₂ content := by
  intro fuel₁
  induction fuel₁ with
  | zero =>
    intro fuel₂ content h1 _
    have hc : content = [] := List.eq_nil_of_length_eq_zero (Nat.le_zero.mp h1)
    subst hc
    cases fuel₂ with
    | zero => rfl
    | succ f2 =>
      simp only [splitGo]
      by_cases hguard : (!sep.isEmpty && begins [] sep) = true
      · cases sep with
        | nil => simp at hguard
        | cons s ss => simp [begins] at hguard
      · rw [if_neg hguard]
  | succ f ih =>
    intro fuel₂ content h1 h2
    cases content with
    | nil =>
      cases fuel₂ with
      | zero =>
        simp only [splitGo]
        by_cases hguard : (!sep.isEmpty && begins [] sep) = true
        · cases sep with
          | nil => simp at hguard
          | cons s ss => simp [begins] at hguard
        · rw [if_neg hguard]
      | succ f2 =>
        simp only [splitGo]
        by_cases hguard : (!sep.isEmpty && begins [] sep) = true
        · cases sep with
          | nil => simp at hguard
          | cons s ss => simp [begins] at hguard
        · rw [if_neg hguard, if_neg hguard]
    | cons c cs =>
      obtain ⟨f2, rfl⟩ : ∃ f2, fuel₂ = f2 + 1 := by
        cases fuel₂ with
        | zero => simp at h2
        | succ k => exact ⟨k, rfl⟩
      simp only [splitGo]
      by_cases hguard : (!sep.isEmpty && begins (c :: cs) sep) = true
      · rw [if_pos hguard, if_pos hguard]
        have hsep : sep ≠ [] := by
          intro hn; subst hn; simp at hguard
        have hs1 : 1 ≤ sep.length := sep_length_pos sep hsep
        have hd : ((c :: cs).drop sep.length).length = cs.length + 1 - sep.length := by
          simp [List.length_drop]
        congr 1
        apply ih
        · rw [hd]; simp only [List.length_cons] at h1; omega
        · rw [hd]; simp only [List.length_cons] at h2; omega
      · rw [if_neg hguard, if_neg hguard]
        simp only [List.length_cons] at h1 h2
        rw [ih f2 cs (by omega) (by omega)]

theorem jsSplit_nil (sep : List Char) : jsSplit sep [] = [[]] := rfl

theorem jsSplit_ne_nil (sep content : List Char) : jsSplit sep content ≠ [] :=
  splitGo_ne_nil sep content.length content

theorem jsJoin_cons_cons (sep x y : List Char) (ys : List (List Char)) :
    jsJoin sep (x :: y :: ys) = x ++ sep ++ jsJoin sep (y :: ys) := rfl

theorem jsJoin_consHead (sep : List Char) (c : Char) (L : List (List Char))
    (h : L ≠ []) : jsJoin sep (consHead c L) = c :: jsJoin sep L := by
  match L with
  | [x] => rfl
  | x :: y :: ys => rfl

theorem jsJoin_splitGo (sep : List Char) (hsep : sep ≠ []) :
    ∀ fuel content, content.length ≤ fuel →
      jsJoin sep (splitGo sep fuel content) = content := by
  intro fuel
  induction fuel with
  | zero =>
    intro content h
    have hc : content = [] := List.eq_nil_of_length_eq_zero (Nat.le_zero.mp h)
    subst hc; rfl
  | succ f ih =>
    intro content h
    simp only [splitGo]
    by_cases hguard : (!sep.isEmpty && begins content sep) = true
    · rw [if_pos hguard]
      have hb : begins content sep = true := ((Bool.and_eq_true _ _).mp hguard).2
      have hs1 : 1 ≤ sep.length := sep_length_pos sep hsep
      have hlen : (content.drop sep.length).length ≤ f := by
        simp only [List.length_drop]
        have := begins_length sep content hb
        omega
      obtain ⟨x, xs, hx⟩ : ∃ x xs, splitGo sep f (content.drop sep.length) = x :: xs := by
        cases hsg : splitGo sep f (content.drop sep.length) with
        | nil => exact absurd hsg (splitGo_ne_nil sep f _)
        | cons x xs => exact ⟨x, xs, rfl⟩
      rw [hx, jsJoin_cons_cons, ← hx, ih _ hlen]
      simpa using begins_eq_append sep content hb
    · rw [if_neg hguard]
      cases content with
      | nil => rfl
      | cons c cs =>
        rw [jsJoin_consHead sep c _ (splitGo_ne_nil sep f cs),
          ih cs (by simp only [List.length_cons] at h; omega)]

/-- Split/join round trip: joining the split pieces with the separator
reproduces the content, for any non-empty separator. -/
theorem jsJoin_jsSplit (sep content : List Char) (hsep : sep ≠ []) :
    jsJoin sep (jsSplit sep content) = content :=
  jsJoin_splitGo sep hsep content.length content (Nat.le_refl _)

theorem jsSplit_cons_eq (sep : List Char) (hsep : sep ≠ []) (c : Char) (cs : List Char) :
    jsSplit sep (c :: cs) =
      if begins (c :: cs) sep then [] :: jsSplit sep ((c :: cs).drop sep.length)
      else consHead c (jsSplit sep cs) := by
  show splitGo sep (cs.length + 1) (c :: cs) = _
  have hE : sep.isEmpty = false := by
    cases sep with
    | nil => exact absurd rfl hsep
    | cons s ss => rfl
  simp only [splitGo, hE, Bool.not_false, Bool.true_and]
  by_cases hb : begins (c :: cs) sep = true
  · rw [if_pos hb, if_pos hb]
    congr 1
    apply splitGo_fuel
    · simp only [List.length_drop, List.length_cons]
      have := sep_length_pos sep hsep
      omega
    · exact Nat.le_refl _
  · rw [if_neg hb, if_neg hb]
    rfl

/-- A content containing no occurrence of the pattern head splits into a
single piece. -/
theorem begins_nil_pat : ∀ l : List Char, begins l [] = true := by
  intro l; cases l <;> rfl

theorem begins_take (l p : List Char) (h : begins l p = true) :
    l.take p.length = p := by
  conv_lhs => rw [← begins_eq_append p l h]
  exact List.take_left p (l.drop p.length)

theorem take_begins : ∀ (p l : List Char), l.take p.length = p → begins l p = true := by
  intro p
  induction p with
  | nil => intro l _; exact begins_nil_pat l
  | cons q ps ih =>
    intro l h
    cases l with
    | nil => simp at h
    | cons c cs =>
      simp only [List.length_cons, List.take_succ_cons, List.cons.injEq] at h
      obtain ⟨rfl, h2⟩ := h
      simp [begins, ih cs h2]

theorem begins_append_mono :
    ∀ (p l y : List Char), begins l p = true → begins (l ++ y) p = true := by
  intro p
  induction p with
  | nil => intro l y _; exact begins_nil_pat _
  | cons q ps ih =>
    intro l y h
    cases l with
    | nil => simp [begins] at h
    | cons c cs =>
      simp only [begins, Bool.and_eq_true] at h
      simp only [List.cons_append, begins, Bool.and_eq_true]
      exact ⟨h.1, ih cs y h.2⟩

/-- An occurrence inside either part of an append is an occurrence in the
whole, so absence in the whole gives absence in each part. -/
theorem containsSeg_append (pat : List Char) :
    ∀ (x y : List Char), containsSeg pat (x ++ y) = false →
      containsSeg pat x = false ∧ containsSeg pat y = false := by
  intro x
  induction x with
  | nil =>
    intro y h
    simp only [List.nil_append] at h
    refine ⟨?_, h⟩
    cases pat with
    | nil =>
      exfalso
      cases y with
      | nil => simp [containsSeg] at h
      | cons c cs => simp [containsSeg, begins_nil_pat] at h
    | cons p ps => rfl
  | cons c x' ih =>
    intro y h
    simp only [List.cons_append, containsSeg, Bool.or_eq_false_iff] at h
    obtain ⟨h1, h2⟩ := h
    obtain ⟨hx', hy⟩ := ih y h2
    refine ⟨?_, hy⟩
    simp only [containsSeg, Bool.or_eq_false_iff]
    refine ⟨?_, hx'⟩
    cases hb : begins (c :: x') pat with
    | false => rfl
    | true =>
      exfalso
      have hmono := begins_append_mono pat (c :: x') y hb
      simp only [List.cons_append] at hmono
      simp [hmono] at h1

/-- No pattern occurrence can start strictly inside `s` in `s ++ pat ++ b`:
starting with more than `|pat|` characters of `s` left would put an
occurrence inside `s`, and starting later would force `pat` to have a border
(a proper non-empty prefix that is also a suffix). -/
theorem noFakeStart (pat s b : List Char) (hs : s ≠ [])
    (hb0 : begins s pat = false)
    (hbf : ∀ k, k < pat.length → 1 ≤ k →
      pat.take k ≠ pat.drop (pat.length - k)) :
    begins (s ++ (pat ++ b)) pat = false := by
  cases hcon : begins (s ++ (pat ++ b)) pat with
  | false => rfl
  | true =>
    exfalso
    have htake := begins_take (s ++ (pat ++ b)) pat hcon
    rw [List.take_append_eq_append_take] at htake
    by_cases hls : pat.length ≤ s.length
    · rw [Nat.sub_eq_zero_of_le hls] at htake
      simp only [List.take_zero, List.append_nil] at htake
      exact absurd (take_begins pat s htake) (by simp [hb0])
    · have hlt : s.length < pat.length := Nat.lt_of_not_le hls
      have hspos : 1 ≤ s.length := List.length_pos.mpr hs
      rw [List.take_of_length_le (Nat.le_of_lt hlt)] at htake
      have h2 : (pat ++ b).take (pat.length - s.length)
          = pat.take (pat.length - s.length) := by
        rw [List.take_append_eq_append_take,
          Nat.sub_eq_zero_of_le (Nat.sub_le _ _)]
        simp
      rw [h2] at htake
      have hdrop : pat.drop s.length = pat.take (pat.length - s.length) := by
        conv_lhs => rw [← htake]
        rw [List.drop_left]
      apply hbf (pat.length - s.length) (by omega) (by omega)
      rw [show pat.length - (pat.length - s.length) = s.length from by omega]
      exact hdrop.symm

/-- A content with no occurrence of the pattern splits into a single piece. -/
theorem jsSplit_no_token (t : Char) (ts : List Char) :
    ∀ x, containsSeg (t :: ts) x = false → jsSplit (t :: ts) x = [x] := by
  intro x
  induction x with
  | nil => intro _; rfl
  | cons c cs ih =>
    intro h
    simp only [containsSeg, Bool.or_eq_false_iff] at h
    rw [jsSplit_cons_eq (t :: ts) (by simp) c cs, if_neg (by simp [h.1]),
      ih h.2, consHead_cons]

/-- Splitting `a ++ pat ++ b` on a border-free pattern that does not occur in
`a` detaches `a`: the first pattern occurrence is exactly the inserted one. -/
theorem jsSplit_straddle_token (t : Char) (ts : List Char)
    (hbf : ∀ k, k < (t :: ts).length → 1 ≤ k →
      (t :: ts).take k ≠ (t :: ts).drop ((t :: ts).length - k)) :
    ∀ (a b : List Char), containsSeg (t :: ts) a = false →
      jsSplit (t :: ts) (a ++ (t :: ts) ++ b) = a :: jsSplit (t :: ts) b := by
  intro a
  induction a with
  | nil =>
    intro b _
    simp only [List.nil_append, List.cons_append]
    rw [jsSplit_cons_eq (t :: ts) (by simp) t (ts ++ b)]
    have hb : begins (t :: (ts ++ b)) (t :: ts) = true := by
      simp [begins, begins_append_self]
    rw [if_pos hb]
    have hd : (t :: (ts ++ b)).drop (t :: ts).length = b := by
      simp [List.drop_left]
    rw [hd]
  | cons c a' ih =>
    intro b hcont
    simp only [containsSeg, Bool.or_eq_false_iff] at hcont
    obtain ⟨hb0, hcont'⟩ := hcont
    simp only [List.cons_append]
    rw [jsSplit_cons_eq (t :: ts) (by simp) c (a' ++ (t :: ts) ++ b)]
    rw [if_neg (by
      have hnf := noFakeStart (t :: ts) (c :: a') b (by simp) hb0 hbf
      simp only [List.cons_append, List.append_assoc] at hnf
      simp [hnf])]
    have := ih b hcont'
    simp only [List.cons_append, List.append_assoc] at this ⊢
    rw [this, consHead_cons]

theorem jsSplit_join_tail_token (t : Char) (ts sep : List Char)
    (hbf : ∀ k, k < (t :: ts).length → 1 ≤ k →
      (t :: ts).take k ≠ (t :: ts).drop ((t :: ts).length - k)) :
    ∀ ps q, containsSeg (t :: ts) (sep ++ jsJoin sep (q :: ps)) = false →
      jsSplit (t :: ts) (sep ++ jsJoin ((t :: ts) ++ sep) (q :: ps)) =
        (sep ++ q) :: ps.map (fun p => sep ++ p) := by
  intro ps
  induction ps with
  | nil =>
    intro q h
    exact jsSplit_no_token t ts (sep ++ q) h
  | cons r ps' ih =>
    intro q h
    rw [jsJoin_cons_cons] at h
    have h' : containsSeg (t :: ts)
        ((sep ++ q) ++ (sep ++ jsJoin sep (r :: ps'))) = false := by
      simpa [List.append_assoc] using h
    obtain ⟨h1, h2⟩ := containsSeg_append (t :: ts) _ _ h'
    have hrw : sep ++ jsJoin ((t :: ts) ++ sep) (q :: r :: ps')
        = (sep ++ q) ++ ((t :: ts) ++ (sep ++ jsJoin ((t :: ts) ++ sep) (r :: ps'))) := by
      rw [jsJoin_cons_cons]
      simp [List.append_assoc]
    have hstr := jsSplit_straddle_token t ts hbf (sep ++ q)
      (sep ++ jsJoin ((t :: ts) ++ sep) (r :: ps')) h1
    simp only [List.append_assoc] at hrw hstr
    rw [hrw, hstr, ih r h2]
    simp

/-- Splitting the pieces rejoined with `pat ++ sep` on a border-free pattern
recovers the first piece followed by the remaining pieces each prefixed with
`sep`, provided the pattern does not occur in the pieces rejoined with `sep`
alone (that is, in the original content). -/
theorem jsSplit_join_pieces_token (t : Char) (ts sep : List Char)
    (hbf : ∀ k, k < (t :: ts).length → 1 ≤ k →
      (t :: ts).take k ≠ (t :: ts).drop ((t :: ts).length - k)) :
    ∀ p ps, containsSeg (t :: ts) (jsJoin sep (p :: ps)) = false →
      jsSplit (t :: ts) (jsJoin ((t :: ts) ++ sep) (p :: ps)) =
        p :: ps.map (fun r => sep ++ r) := by
  intro p ps h
  cases ps with
  | nil => exact jsSplit_no_token t ts p h
  | cons q ps' =>
    rw [jsJoin_cons_cons] at h
    obtain ⟨h1, h2⟩ := containsSeg_append (t :: ts) p (sep ++ jsJoin sep (q :: ps'))
      (by simpa [List.append_assoc] using h)
    have hrw : jsJoin ((t :: ts) ++ sep) (p :: q :: ps')
        = p ++ ((t :: ts) ++ (sep ++ jsJoin ((t :: ts) ++ sep) (q :: ps'))) := by
      rw [jsJoin_cons_cons]
      simp [List.append_assoc]
    have hstr := jsSplit_straddle_token t ts hbf p
      (sep ++ jsJoin ((t :: ts) ++ sep) (q :: ps')) h1
    simp only [List.append_assoc] at hrw hstr
    rw [hrw, hstr, jsSplit_join_tail_token t ts sep hbf ps' q h2]
    simp

/-! ## Lemmas about the evaluators and the assembly stage -/

theorem except_bind_ok {ε α β : Type} (a : α) (k : α → Except ε β) :
    (Except.ok a : Except ε α) >>= k = k a := rfl

/-- Once bailed, the remaining chunks all pass through unchanged. -/
theorem singleGo_bailed (constraint : ConstraintVal) (update : UpdateVal)
    (shouldBail : Bool) (chunks : List (List Char)) (sep : List Char) :
    ∀ idxs, singleGo constraint update shouldBail chunks sep idxs true =
      .ok (idxs.map fun i => .str (createContext chunks i).chunk) := by
  intro idxs
  induction idxs with
  | nil => rfl
  | cons i rest ih =>
    simp only [singleGo, if_pos rfl, ih, List.map_cons]
    rfl

/-- A constraint that holds on no context leaves every chunk unchanged. -/
theorem singleGo_neverMatch (f : ChunkContext → List Char → Bool)
    (update : UpdateVal) (shouldBail : Bool) (chunks : List (List Char))
    (sep : List Char) (hf : ∀ ctx, f ctx sep = false) :
    ∀ idxs, singleGo (.fn f) update shouldBail chunks sep idxs false =
      .ok (idxs.map fun i => .str (createContext chunks i).chunk) := by
  intro idxs
  induction idxs with
  | nil => rfl
  | cons i rest ih =>
    simp only [singleGo, if_neg Bool.false_ne_true, callConstraint, except_bind_ok,
      hf, ih, List.map_cons]

/-- Without `bailOnFirstMatch`, single-rule evaluation is an independent
per-index map. -/
theorem singleGo_noBail (f : ChunkContext → List Char → Bool)
    (g : ChunkContext → List Char → UpdateResult)
    (chunks : List (List Char)) (sep : List Char) :
    ∀ idxs, singleGo (.fn f) (.fn g) false chunks sep idxs false =
      .ok (idxs.map fun i =>
        if f (createContext chunks i) sep then g (createContext chunks i) sep
        else .str (createContext chunks i).chunk) := by
  intro idxs
  induction idxs with
  | nil => rfl
  | cons i rest ih =>
    simp only [singleGo, if_neg Bool.false_ne_true, callConstraint, callUpdate,
      except_bind_ok, List.map_cons]
    by_cases hfi : f (createContext chunks i) sep = true
    · simp only [hfi, if_pos rfl, Bool.false_and, ih]
      rfl
    · simp only [if_neg hfi, ih]
      rfl

/-- With `bailOnFirstMatch`, only the first index whose context satisfies the
constraint receives the update; all other indices pass through unchanged. -/
theorem singleGo_bailFirst (f : ChunkContext → List Char → Bool)
    (g : ChunkContext → List Char → UpdateResult)
    (chunks : List (List Char)) (sep : List Char) :
    ∀ idxs, idxs.Nodup →
      singleGo (.fn f) (.fn g) true chunks sep idxs false =
        .ok (idxs.map fun i =>
          if idxs.find? (fun j => f (createContext chunks j) sep) = some i
          then g (createContext chunks i) sep
          else .str (createContext chunks i).chunk) := by
  intro idxs
  induction idxs with
  | nil => intro _; rfl
  | cons i rest ih =>
    intro hnd
    have hnotmem : i ∉ rest := (List.nodup_cons.mp hnd).1
    have hndrest : rest.Nodup := (List.nodup_cons.mp hnd).2
    simp only [singleGo, if_neg Bool.false_ne_true, callConstraint, callUpdate,
      except_bind_ok]
    by_cases hfi : f (createContext chunks i) sep = true
    · have hfind : (i :: rest).find? (fun j => f (createContext chunks j) sep) = some i :=
        List.find?_cons_of_pos rest hfi
      have hmap : ((i :: rest).map fun k =>
          if (i :: rest).find? (fun j => f (createContext chunks j) sep) = some k
          then g (createContext chunks k) sep
          else .str (createContext chunks k).chunk)
          = g (createContext chunks i) sep ::
            rest.map (fun k => .str (createContext chunks k).chunk) := by
        rw [List.map_cons, hfind, if_pos rfl]
        congr 1
        apply List.map_congr_left
        intro k hk
        rw [if_neg]
        intro heq
        exact hnotmem (Option.some.inj heq ▸ hk)
      rw [hmap]
      simp only [hfi, if_pos rfl, Bool.and_self, singleGo_bailed]
      rfl
    · have hfind : (i :: rest).find? (fun j => f (createContext chunks j) sep)
          = rest.find? (fun j => f (createContext chunks j) sep) :=
        List.find?_cons_of_neg rest (by simp [hfi])
      have hmap : ((i :: rest).map fun k =>
          if (i :: rest).find? (fun j => f (createContext chunks j) sep) = some k
          then g (createContext chunks k) sep
          else .str (createContext chunks k).chunk)
          = .str (createContext chunks i).chunk ::
            (rest.map fun k =>
              if rest.find? (fun j => f (createContext chunks j) sep) = some k
              then g (createContext chunks k) sep
              else .str (createContext chunks k).chunk) := by
        rw [List.map_cons, hfind, if_neg]
        intro heq
        exact hnotmem (List.mem_of_find?_eq_some heq)
      rw [hmap]
      simp only [if_neg hfi, ih hndrest]
      rfl

/-- The rule loop over callable rules is a left fold: each firing rule
overwrites the running value with its update of the (fixed) per-index
context. -/
theorem applyRules_fn (ctx : ChunkContext) (sep : List Char) :
    ∀ (rules : List ((ChunkContext → List Char → Bool) ×
        (ChunkContext → List Char → UpdateResult))) (acc : UpdateResult),
      applyRules ctx sep (rules.map fun r => ⟨.fn r.1, .fn r.2⟩) acc =
        .ok (rules.foldl
          (fun acc r => if r.1 ctx sep then r.2 ctx sep else acc) acc) := by
  intro rules
  induction rules with
  | nil => intro acc; rfl
  | cons r rest ih =>
    intro acc
    simp only [List.map_cons, applyRules, callUpdate, List.foldl_cons]
    by_cases hr : r.1 ctx sep = true
    · rw [if_pos hr, if_pos hr]
      exact ih _
    · rw [if_neg hr, if_neg hr]
      exact ih _

theorem multiGo_fn (chunks : List (List Char)) (sep : List Char)
    (rules : List ((ChunkContext → List Char → Bool) ×
      (ChunkContext → List Char → UpdateResult))) :
    ∀ idxs, multiGo (rules.map fun r => ⟨.fn r.1, .fn r.2⟩) chunks sep idxs =
      .ok (idxs.map fun idx =>
        rules.foldl
          (fun acc r => if r.1 (createContext chunks idx) sep
            then r.2 (createContext chunks idx) sep else acc)
          (.str (createContext chunks idx).chunk)) := by
  intro idxs
  induction idxs with
  | nil => rfl
  | cons i rest ih =>
    simp only [multiGo, applyRules_fn, except_bind_ok, ih, List.map_cons]

/-- A rule whose constraint slot is non-callable is skipped by the rule
loop. -/
theorem applyRules_skip (ctx : ChunkContext) (sep : List Char) (u : UpdateVal) :
    ∀ (pre post : List UpdateRule) (acc : UpdateResult),
      applyRules ctx sep (pre ++ ⟨.notFn, u⟩ :: post) acc =
        applyRules ctx sep (pre ++ post) acc := by
  intro pre
  induction pre with
  | nil => intro post acc; rfl
  | cons r pre' ih =>
    intro post acc
    obtain ⟨rc, ru⟩ := r
    cases rc with
    | fn f =>
      simp only [List.cons_append, applyRules]
      by_cases hf : f ctx sep = true
      · rw [if_pos hf, if_pos hf]
        cases ru with
        | fn g => simp only [callUpdate, except_bind_ok]; exact ih post _
        | notFn => rfl
      · rw [if_neg hf, if_neg hf]
        exact ih post acc
    | notFn =>
      simp only [List.cons_append, applyRules]
      exact ih post acc

theorem multiGo_congr (rules₁ rules₂ : List UpdateRule)
    (chunks : List (List Char)) (sep : List Char)
    (h : ∀ ctx acc, applyRules ctx sep rules₁ acc = applyRules ctx sep rules₂ acc) :
    ∀ idxs, multiGo rules₁ chunks sep idxs = multiGo rules₂ chunks sep idxs := by
  intro idxs
  induction idxs with
  | nil => rfl
  | cons i rest ih =>
    simp only [multiGo, h, ih]

/-- The two assembly filters collapse to a single order-preserving filter. -/
theorem assembleChunks_eq_filter (re : Bool) (results : List UpdateResult) :
    assembleChunks re results =
      results.filter (fun c => !isObjectTyped c && (!re || truthy c)) := by
  cases re with
  | false =>
    show results.filter (fun chunk => !isObjectTyped chunk) = _
    apply List.filter_congr
    intro c _
    simp
  | true =>
    show (results.filter truthy).filter (fun chunk => !isObjectTyped chunk) = _
    rw [List.filter_filter]
    apply List.filter_congr
    intro c _
    simp [Bool.and_comm]

theorem assembleChunks_map_str (l : List (List Char)) :
    assembleChunks false (l.map .str) = l.map .str := by
  simp only [assembleChunks, if_neg Bool.false_ne_true]
  apply List.filter_eq_self.mpr
  intro a ha
  obtain ⟨x, _, rfl⟩ := List.mem_map.mp ha
  rfl

theorem map_strOf_map_str (l : List (List Char)) :
    (l.map UpdateResult.str).map strOf = l := by
  induction l with
  | nil => rfl
  | cons a l ih => simp [strOf, ih]

theorem range_map_getD {β : Type} (l : List (List Char)) (F : List Char → β) :
    (List.range l.length).map (fun i => F (l.getD i [])) = l.map F := by
  induction l with
  | nil => rfl
  | cons a l ih =>
    rw [List.length_cons, List.range_succ_eq_map, List.map_cons, List.map_map,
      List.map_cons]
    have h1 : List.map ((fun i => F ((a :: l).getD i [])) ∘ Nat.succ)
        (List.range l.length) = List.map F l := by
      rw [← ih]
      apply List.map_congr_left
      intro i _
      rfl
    rw [h1]
    rfl

theorem effectiveSeparator_ne_nil : ∀ o : Option (List Char), effectiveSeparator o ≠ [] := by
  intro o
  cases o with
  | none => simp [effectiveSeparator]
  | some s => cases s <;> simp [effectiveSeparator]

/-- Evaluating a per-chunk map on the reversed sequence and un-reversing the
assembled result writes the same text as evaluating on the original
sequence: the assembly filters commute with reversal. -/
theorem writeStage_reverse_restore (sep : List Char) (re : Bool)
    (F : List Char → UpdateResult) (L : List (List Char)) :
    writeStage sep re true false ((L.reverse).map F) =
      writeStage sep re false false (L.map F) := by
  show jsJoin sep (((assembleChunks re ((L.reverse).map F)).reverse).map strOf) =
    jsJoin sep ((assembleChunks re (L.map F)).map strOf)
  rw [List.map_reverse F L, assembleChunks_eq_filter, assembleChunks_eq_filter,
    List.filter_reverse, List.reverse_reverse]

/-- Decidable equality of evaluation outcomes, for checking concrete runs. -/
instance : DecidableEq (Except JsError (List Char)) := fun x y =>
  match x, y with
  | .ok a, .ok b =>
    match decEq a b with
    | isTrue h => isTrue (h ▸ rfl)
    | isFalse h => isFalse (fun hx => h (Except.ok.inj hx))
  | .error a, .error b =>
    match decEq a b with
    | isTrue h => isTrue (h ▸ rfl)
    | isFalse h => isFalse (fun hx => h (Except.error.inj hx))
  | .ok _, .error _ => isFalse (fun hx => Except.noConfusion hx)
  | .error _, .ok _ => isFalse (fun hx => Except.noConfusion hx)

/-! ## Claim theorems -/

/-- Claim C1: round-trip identity — for every file content, running
`reWriteFileSync` with a single-rule spec whose constraint returns `false` on
every context (the update being arbitrary) and all other options at their
defaults writes back content byte-for-byte equal to the original. -/
theorem c1_round_trip_identity (content : List Char)
    (f : ChunkContext → List Char → Bool)
    (g : ChunkContext → List Char → UpdateResult)
    (hf : ∀ ctx sep, f ctx sep = false) :
    reWriteFileSync content { config := .single (.fn f) (.fn g) } = .ok content := by
  have hsep : (['\n'] : List Char) ≠ [] := by simp
  show (singleModeEval (.fn f) (.fn g) false (jsSplit ['\n'] content) ['\n'] >>=
      fun updatedChunks =>
        Except.ok (writeStage ['\n'] false false false updatedChunks)) = .ok content
  have hm : singleModeEval (.fn f) (.fn g) false (jsSplit ['\n'] content) ['\n'] =
      .ok ((List.range (jsSplit ['\n'] content).length).map fun i =>
        UpdateResult.str ((jsSplit ['\n'] content).getD i [])) :=
    singleGo_neverMatch f (.fn g) false (jsSplit ['\n'] content) ['\n']
      (fun ctx => hf ctx ['\n']) (List.range (jsSplit ['\n'] content).length)
  rw [hm, range_map_getD (jsSplit ['\n'] content) UpdateResult.str, except_bind_ok]
  show Except.ok (jsJoin ['\n']
      ((assembleChunks false ((jsSplit ['\n'] content).map .str)).map strOf))
    = Except.ok content
  rw [assembleChunks_map_str, map_strOf_map_str, jsJoin_jsSplit ['\n'] content hsep]

/-- Claim C1 witness: a concrete run of the round-trip identity. -/
theorem c1_round_trip_identity_witness :
    reWriteFileSync ['a', '\n', 'b']
      { config := .single (.fn fun _ _ => false) (.fn fun _ _ => .str []) } =
      .ok ['a', '\n', 'b'] :=
  c1_round_trip_identity ['a', '\n', 'b'] _ _ (fun _ _ => rfl)

/-- Claim C3: bail monotonicity — in single-rule mode with
`bailOnFirstMatch = true`, the result sequence updates exactly the first index
(in processing order of the supplied, possibly reversed, chunk sequence) whose
context satisfies the constraint, and every other chunk passes through
unchanged. -/
theorem c3_bail_first_match (f : ChunkContext → List Char → Bool)
    (g : ChunkContext → List Char → UpdateResult)
    (chunks : List (List Char)) (sep : List Char) :
    singleModeEval (.fn f) (.fn g) true chunks sep =
      .ok ((List.range chunks.length).map fun i =>
        if (List.range chunks.length).find?
            (fun j => f (createContext chunks j) sep) = some i
        then g (createContext chunks i) sep
        else .str (createContext chunks i).chunk) :=
  singleGo_bailFirst f g chunks sep (List.range chunks.length)
    (List.nodup_range chunks.length)

/-- Claim C4: multi-rule evaluation semantics — for every chunk index the
context handed to every rule is built once, from the chunk sequence at that
index (with its neighbors in that sequence), never from the running
intermediate value: the per-index result is a left fold that starts from the
original chunk text and lets each matching rule overwrite the accumulator with
its update of that fixed context; and multi-rule mode has no bail — the
`bailOnFirstMatch` option has no effect on the written result. -/
theorem c4_multi_rule_semantics :
    (∀ (rules : List ((ChunkContext → List Char → Bool) ×
        (ChunkContext → List Char → UpdateResult)))
      (chunks : List (List Char)) (sep : List Char),
      multiModeEval (rules.map fun r => ⟨.fn r.1, .fn r.2⟩) chunks sep =
        .ok ((List.range chunks.length).map fun idx =>
          rules.foldl
            (fun acc r => if r.1 (createContext chunks idx) sep
              then r.2 (createContext chunks idx) sep else acc)
            (.str (createContext chunks idx).chunk)))
    ∧ (∀ (content : List Char) (updates : List UpdateRule)
        (sepOpt : Option (List Char)) (re : Bool) (b : Option Bool) (inv pio : Bool),
        reWriteFileSync content
          { separator := sepOpt, removeEmpty := re, bailOnFirstMatch := b,
            invert := inv, preserveInvertedOrder := pio, config := .multiple updates } =
        reWriteFileSync content
          { separator := sepOpt, removeEmpty := re, bailOnFirstMatch := none,
            invert := inv, preserveInvertedOrder := pio, config := .multiple updates }) := by
  constructor
  · intro rules chunks sep
    exact multiGo_fn chunks sep rules (List.range chunks.length)
  · intro content updates sepOpt re b inv pio
    rfl

/-- Claim C5: deletion property — every object result (in particular the
deletion marker `obj true`) is absent from the assembled output whatever the
`removeEmpty` setting; the survivors are an order-preserving filter of the
evaluation results; and the written text joins them with the configured
separator. -/
theorem c5_deletion_property (sep : List Char) (re : Bool)
    (results : List UpdateResult) :
    (assembleChunks re results).all (fun c => !isObjectTyped c) = true ∧
    assembleChunks re results =
      results.filter (fun c => !isObjectTyped c && (!re || truthy c)) ∧
    writeStage sep re false false results =
      jsJoin sep ((results.filter
        (fun c => !isObjectTyped c && (!re || truthy c))).map strOf) := by
  refine ⟨?_, assembleChunks_eq_filter re results, ?_⟩
  · rw [assembleChunks_eq_filter, List.all_eq_true]
    intro c hc
    have h := (List.mem_filter.mp hc).2
    exact ((Bool.and_eq_true _ _).mp h).1
  · show jsJoin sep ((assembleChunks re results).map strOf) = _
    rw [assembleChunks_eq_filter]

/-- Claim C9: a falsy separator option — the empty string, like an absent
key — is silently replaced by the default separator `"\n"`, so passing
`separator: ""` behaves exactly like omitting the option. -/
theorem c9_empty_separator_defaults (content : List Char)
    (o : ReWriteFileSyncOptions) :
    reWriteFileSync content { o with separator := some [] } =
      reWriteFileSync content { o with separator := none } ∧
    effectiveSeparator (some []) = ['\n'] :=
  ⟨rfl, rfl⟩

/-- Claim C10: the output assembler removes every result of object type, not
only the tagged deletion marker — prefiltering all object-typed results
changes nothing for either `removeEmpty` setting, and an update returning any
object value (marker or not) has its chunk dropped; since the falsy filter
runs first and objects are truthy, this holds identically with and without
`removeEmpty`. -/
theorem c10_object_results_removed (re : Bool) (results : List UpdateResult) :
    (assembleChunks re results).all (fun c => !isObjectTyped c) = true ∧
    assembleChunks re results =
      assembleChunks re (results.filter (fun c => !isObjectTyped c)) ∧
    (∀ d : Bool, assembleChunks re (UpdateResult.obj d :: results) =
      assembleChunks re results) := by
  refine ⟨?_, ?_, ?_⟩
  · rw [assembleChunks_eq_filter, List.all_eq_true]
    intro c hc
    exact ((Bool.and_eq_true _ _).mp (List.mem_filter.mp hc).2).1
  · rw [assembleChunks_eq_filter, assembleChunks_eq_filter, List.filter_filter]
    apply List.filter_congr
    intro c _
    cases h : isObjectTyped c <;> simp [h]
  · intro d
    rw [assembleChunks_eq_filter, assembleChunks_eq_filter,
      List.filter_cons_of_neg]
    simp [isObjectTyped]

/-- Claim C2 counterexample: with an index-sensitive rule (constraint
`index == 0`, update `"X"`, no bail), inverting changes the written text:
the invert run yields `"a\nX"` while the plain run yields `"X\nb"` on content
`"a\nb"` — so invert/restore is not output-identical for every rule set. -/
theorem c2_counterexample :
    reWriteFileSync ['a', '\n', 'b']
      { invert := true,
        config := .single (.fn fun ctx _ => ctx.index == 0)
          (.fn fun _ _ => .str ['X']) } = .ok ['a', '\n', 'X'] ∧
    reWriteFileSync ['a', '\n', 'b']
      { config := .single (.fn fun ctx _ => ctx.index == 0)
          (.fn fun _ _ => .str ['X']) } = .ok ['X', '\n', 'b'] ∧
    reWriteFileSync ['a', '\n', 'b']
      { invert := true,
        config := .single (.fn fun ctx _ => ctx.index == 0)
          (.fn fun _ _ => .str ['X']) } ≠
    reWriteFileSync ['a', '\n', 'b']
      { config := .single (.fn fun ctx _ => ctx.index == 0)
          (.fn fun _ _ => .str ['X']) } := by
  refine ⟨rfl, rfl, ?_⟩
  decide

/-- Claim C2 (amended): when every rule's constraint and update depend only
on the chunk text — not on the index or the neighbor chunks — running with
`invert = true` and `preserveInvertedOrder = false` writes exactly the same
text as running with `invert = false`: in single-rule mode without
`bailOnFirstMatch`, and in multi-rule mode for every rule list. -/
theorem c2_amended_chunk_local_rules (content : List Char)
    (sepOpt : Option (List Char)) (re : Bool) :
    (∀ (f : ChunkContext → List Char → Bool)
      (g : ChunkContext → List Char → UpdateResult)
      (f0 : List Char → List Char → Bool)
      (g0 : List Char → List Char → UpdateResult),
      (∀ ctx sep, f ctx sep = f0 ctx.chunk sep) →
      (∀ ctx sep, g ctx sep = g0 ctx.chunk sep) →
      reWriteFileSync content
        { separator := sepOpt, removeEmpty := re, invert := true,
          config := .single (.fn f) (.fn g) } =
      reWriteFileSync content
        { separator := sepOpt, removeEmpty := re, invert := false,
          config := .single (.fn f) (.fn g) })
    ∧ (∀ (rules : List ((ChunkContext → List Char → Bool) ×
        (ChunkContext → List Char → UpdateResult))),
      (∀ r ∈ rules, ∀ (ctx ctx' : ChunkContext) (sep : List Char),
        ctx.chunk = ctx'.chunk →
          r.1 ctx sep = r.1 ctx' sep ∧ r.2 ctx sep = r.2 ctx' sep) →
      reWriteFileSync content
        { separator := sepOpt, removeEmpty := re, invert := true,
          config := .multiple (rules.map fun r => ⟨.fn r.1, .fn r.2⟩) } =
      reWriteFileSync content
        { separator := sepOpt, removeEmpty := re, invert := false,
          config := .multiple (rules.map fun r => ⟨.fn r.1, .fn r.2⟩) }) := by
  constructor
  · intro f g f0 g0 hf hg
    have step : ∀ (chunks : List (List Char)) (sep : List Char),
        singleModeEval (.fn f) (.fn g) false chunks sep =
          .ok (chunks.map fun c =>
            if f0 c sep then g0 c sep else UpdateResult.str c) := by
      intro chunks sep
      have h1 := singleGo_noBail f g chunks sep (List.range chunks.length)
      have h2 : ((List.range chunks.length).map fun i =>
          if f (createContext chunks i) sep then g (createContext chunks i) sep
          else .str (createContext chunks i).chunk) =
          (List.range chunks.length).map (fun i =>
            if f0 (chunks.getD i []) sep then g0 (chunks.getD i []) sep
            else UpdateResult.str (chunks.getD i [])) := by
        apply List.map_congr_left
        intro i _
        rw [hf, hg]
        rfl
      show singleGo (.fn f) (.fn g) false chunks sep (List.range chunks.length) false = _
      rw [h1, h2,
        range_map_getD chunks (fun c => if f0 c sep then g0 c sep else UpdateResult.str c)]
    show (singleModeEval (.fn f) (.fn g) false
        ((jsSplit (effectiveSeparator sepOpt) content).reverse)
        (effectiveSeparator sepOpt) >>= fun updatedChunks =>
          Except.ok (writeStage (effectiveSeparator sepOpt) re true false updatedChunks)) =
      (singleModeEval (.fn f) (.fn g) false
        (jsSplit (effectiveSeparator sepOpt) content)
        (effectiveSeparator sepOpt) >>= fun updatedChunks =>
          Except.ok (writeStage (effectiveSeparator sepOpt) re false false updatedChunks))
    rw [step, step, except_bind_ok, except_bind_ok]
    congr 1
    exact writeStage_reverse_restore (effectiveSeparator sepOpt) re _ _
  · intro rules hloc
    have step : ∀ (chunks : List (List Char)) (sep : List Char),
        multiModeEval (rules.map fun r => ⟨.fn r.1, .fn r.2⟩) chunks sep =
          .ok (chunks.map fun c =>
            rules.foldl (fun acc r =>
              if r.1 ⟨c, 0, none, none⟩ sep then r.2 ⟨c, 0, none, none⟩ sep else acc)
              (UpdateResult.str c)) := by
      intro chunks sep
      have h1 := multiGo_fn chunks sep rules (List.range chunks.length)
      have h2 : ((List.range chunks.length).map fun idx =>
          rules.foldl
            (fun acc r => if r.1 (createContext chunks idx) sep
              then r.2 (createContext chunks idx) sep else acc)
            (.str (createContext chunks idx).chunk)) =
          (List.range chunks.length).map (fun idx =>
            rules.foldl
              (fun acc r => if r.1 ⟨chunks.getD idx [], 0, none, none⟩ sep
                then r.2 ⟨chunks.getD idx [], 0, none, none⟩ sep else acc)
              (UpdateResult.str (chunks.getD idx []))) := by
        apply List.map_congr_left
        intro idx _
        have hfold : rules.foldl
            (fun acc r => if r.1 (createContext chunks idx) sep
              then r.2 (createContext chunks idx) sep else acc)
            (.str (createContext chunks idx).chunk) =
            rules.foldl
              (fun acc r =>
                if r.1 ⟨(createContext chunks idx).chunk, 0, none, none⟩ sep
                then r.2 ⟨(createContext chunks idx).chunk, 0, none, none⟩ sep else acc)
              (.str (createContext chunks idx).chunk) := by
          apply List.foldl_ext
          intro acc r hr
          obtain ⟨e1, e2⟩ := hloc r hr (createContext chunks idx)
            ⟨(createContext chunks idx).chunk, 0, none, none⟩ sep rfl
          rw [e1, e2]
        rw [hfold]
        rfl
      show multiGo (rules.map fun r => ⟨.fn r.1, .fn r.2⟩) chunks sep
          (List.range chunks.length) = _
      rw [h1, h2, range_map_getD chunks (fun c =>
        rules.foldl (fun acc r =>
          if r.1 ⟨c, 0, none, none⟩ sep then r.2 ⟨c, 0, none, none⟩ sep else acc)
          (UpdateResult.str c))]
    show (multiModeEval (rules.map fun r => ⟨.fn r.1, .fn r.2⟩)
        ((jsSplit (effectiveSeparator sepOpt) content).reverse)
        (effectiveSeparator sepOpt) >>= fun updatedChunks =>
          Except.ok (writeStage (effectiveSeparator sepOpt) re true false updatedChunks)) =
      (multiModeEval (rules.map fun r => ⟨.fn r.1, .fn r.2⟩)
        (jsSplit (effectiveSeparator sepOpt) content)
        (effectiveSeparator sepOpt) >>= fun updatedChunks =>
          Except.ok (writeStage (effectiveSeparator sepOpt) re false false updatedChunks))
    rw [step, step, except_bind_ok, except_bind_ok]
    congr 1
    exact writeStage_reverse_restore (effectiveSeparator sepOpt) re _ _

/-- Claim C2 amended witness: a concrete chunk-text-only rule gives the same
output with and without invert, in single-rule and in multi-rule mode. -/
theorem c2_amended_chunk_local_rules_witness :
    reWriteFileSync ['a', '\n', 'b']
      { separator := none, removeEmpty := false, invert := true,
        config := .single (.fn fun ctx sep => ctx.chunk == sep)
          (.fn fun ctx _ => .str ('X' :: ctx.chunk)) } =
    reWriteFileSync ['a', '\n', 'b']
      { separator := none, removeEmpty := false, invert := false,
        config := .single (.fn fun ctx sep => ctx.chunk == sep)
          (.fn fun ctx _ => .str ('X' :: ctx.chunk)) } ∧
    reWriteFileSync ['a', '\n', 'b']
      { separator := none, removeEmpty := false, invert := true,
        config := .multiple [⟨.fn fun ctx sep => ctx.chunk == sep,
          .fn fun ctx _ => .str ('X' :: ctx.chunk)⟩] } =
    reWriteFileSync ['a', '\n', 'b']
      { separator := none, removeEmpty := false, invert := false,
        config := .multiple [⟨.fn fun ctx sep => ctx.chunk == sep,
          .fn fun ctx _ => .str ('X' :: ctx.chunk)⟩] } :=
  ⟨(c2_amended_chunk_local_rules ['a', '\n', 'b'] none false).1
      _ _ (fun c sep => c == sep) (fun c _ => .str ('X' :: c))
      (fun _ _ => rfl) (fun _ _ => rfl),
    (c2_amended_chunk_local_rules ['a', '\n', 'b'] none false).2
      [(fun ctx sep => ctx.chunk == sep, fun ctx _ => .str ('X' :: ctx.chunk))]
      (by
        intro r hr ctx ctx' sep h
        simp only [List.mem_singleton] at hr
        subst hr
        simp [h])⟩

/-- Claim C6 counterexample: on content `"x\ny"` with separator `"\n"`,
`getChunks` returns `["x", "\ny"]` — the separator is attached to the
beginning of the following chunk — and not `["x\n", "y"]`, which is what
attaching the separator to the end of each chunk would produce. -/
theorem c6_counterexample :
    getChunks ['x', '\n', 'y'] ['\n'] false = [['x'], ['\n', 'y']] ∧
    getChunks ['x', '\n', 'y'] ['\n'] false ≠ [['x', '\n'], ['y']] := by
  decide

/-- Claim C6 (amended): `getChunks` (without normalize) tags the marker token
`"lofo--"` immediately before each separator occurrence and splits on that
token, so that — provided the marker token does not occur as a substring of
the content — the separator ends up attached to the beginning of each chunk
except the first.  (An occurrence of the token inside the separator would put
the token in the content wherever the separator occurs, so it is covered by
the same proviso.) -/
theorem c6_amended_marker_split (content sep : List Char) (hsep : sep ≠ [])
    (hcol : containsSeg ['l', 'o', 'f', 'o', '-', '-'] content = false) :
    ∃ p ps, jsSplit sep content = p :: ps ∧
      getChunks content sep false = p :: ps.map (fun r => sep ++ r) := by
  obtain ⟨p, ps, hps⟩ : ∃ p ps, jsSplit sep content = p :: ps := by
    cases h : jsSplit sep content with
    | nil => exact absurd h (jsSplit_ne_nil sep content)
    | cons p ps => exact ⟨p, ps, rfl⟩
  refine ⟨p, ps, hps, ?_⟩
  have hbf : ∀ k, k < (['l', 'o', 'f', 'o', '-', '-'] : List Char).length → 1 ≤ k →
      (['l', 'o', 'f', 'o', '-', '-'] : List Char).take k ≠
        (['l', 'o', 'f', 'o', '-', '-'] : List Char).drop
          ((['l', 'o', 'f', 'o', '-', '-'] : List Char).length - k) := by
    decide
  show jsSplit ['l', 'o', 'f', 'o', '-', '-']
      (jsJoin (['l', 'o', 'f', 'o', '-', '-'] ++ sep) (jsSplit sep content)) =
    p :: ps.map (fun r => sep ++ r)
  rw [hps]
  apply jsSplit_join_pieces_token 'l' ['o', 'f', 'o', '-', '-'] sep hbf p ps
  rw [← hps, jsJoin_jsSplit sep content hsep]
  exact hcol

/-- Claim C6 amended witness: the amended characterisation at a concrete
input that contains the letter l but not the marker token. -/
theorem c6_amended_marker_split_witness :
    ∃ p ps, jsSplit ['\n'] ['h', 'e', 'l', 'l', 'o', '\n', 'y'] = p :: ps ∧
      getChunks ['h', 'e', 'l', 'l', 'o', '\n', 'y'] ['\n'] false =
        p :: ps.map (fun r => ['\n'] ++ r) :=
  c6_amended_marker_split ['h', 'e', 'l', 'l', 'o', '\n', 'y'] ['\n']
    (by decide) (by decide)

/-- Claim C7 counterexample: in single-rule mode a non-callable constraint is
not tolerated — the call raises a `TypeError` instead of passing content
through unchanged. -/
theorem c7_counterexample :
    reWriteFileSync ['a']
      { config := .single .notFn (.fn fun _ _ => .str ['a']) } =
        .error .typeError ∧
    reWriteFileSync ['a']
      { config := .single .notFn (.fn fun _ _ => .str ['a']) } ≠ .ok ['a'] := by
  refine ⟨rfl, ?_⟩
  decide

/-- Claim C7 (amended): the `typeof` guard exists only in multi-rule mode and
only for the constraint — a rule whose constraint slot is non-callable is
skipped there, as if it never matched; in single-rule mode the constraint is
invoked unguarded, so a present but non-callable constraint raises a
`TypeError` for any content. -/
theorem c7_amended_noncallable_semantics :
    (∀ (pre post : List UpdateRule) (u : UpdateVal)
      (chunks : List (List Char)) (sep : List Char),
      multiModeEval (pre ++ ⟨.notFn, u⟩ :: post) chunks sep =
        multiModeEval (pre ++ post) chunks sep)
    ∧ (∀ (content : List Char) (u : UpdateVal),
      reWriteFileSync content { config := .single .notFn u } =
        .error .typeError) := by
  constructor
  · intro pre post u chunks sep
    exact multiGo_congr _ _ chunks sep
      (fun ctx acc => applyRules_skip ctx sep u pre post acc) _
  · intro content u
    obtain ⟨n, hn⟩ : ∃ n, (jsSplit ['\n'] content).length = n + 1 := by
      cases h : jsSplit ['\n'] content with
      | nil => exact absurd h (jsSplit_ne_nil _ _)
      | cons a l => exact ⟨l.length, by simp [h]⟩
    show (singleGo .notFn u false (jsSplit ['\n'] content) ['\n']
        (List.range (jsSplit ['\n'] content).length) false >>=
        fun updatedChunks =>
          Except.ok (writeStage ['\n'] false false false updatedChunks)) =
      .error .typeError
    rw [hn, List.range_succ_eq_map]
    rfl

/-- Claim C8 counterexample: a malformed rule configuration combined with
`removeEmpty := true` does not preserve content byte-for-byte — on
`"a\n\nb"` the empty middle chunk is dropped and `"a\nb"` is written. -/
theorem c8_counterexample :
    reWriteFileSync ['a', '\n', '\n', 'b']
      { removeEmpty := true, config := .malformed } = .ok ['a', '\n', 'b'] ∧
    reWriteFileSync ['a', '\n', '\n', 'b']
      { removeEmpty := true, config := .malformed } ≠
      .ok ['a', '\n', '\n', 'b'] := by
  refine ⟨rfl, ?_⟩
  decide

/-- Claim C8 (amended): with a malformed rule configuration (neither
single-rule nor multi-rule shape), and with `removeEmpty` unset and no
order-preserved inversion, `reWriteFileSync` raises no error and writes the
original content back byte-for-byte, for every separator, bail setting and
invert flag. -/
theorem c8_amended_malformed_passthrough (content : List Char)
    (sepOpt : Option (List Char)) (b : Option Bool) (inv : Bool) :
    reWriteFileSync content
      { separator := sepOpt, removeEmpty := false, bailOnFirstMatch := b,
        invert := inv, preserveInvertedOrder := false, config := .malformed } =
      .ok content := by
  have hsep := effectiveSeparator_ne_nil sepOpt
  cases inv with
  | false =>
    show (Except.ok ((jsSplit (effectiveSeparator sepOpt) content).map .str) >>=
        fun updatedChunks =>
          Except.ok (writeStage (effectiveSeparator sepOpt) false false false
            updatedChunks)) = .ok content
    rw [except_bind_ok]
    show Except.ok (jsJoin (effectiveSeparator sepOpt)
        ((assembleChunks false
          ((jsSplit (effectiveSeparator sepOpt) content).map .str)).map strOf)) =
      Except.ok content
    rw [assembleChunks_map_str, map_strOf_map_str,
      jsJoin_jsSplit (effectiveSeparator sepOpt) content hsep]
  | true =>
    show (Except.ok (((jsSplit (effectiveSeparator sepOpt) content).reverse).map .str) >>=
        fun updatedChunks =>
          Except.ok (writeStage (effectiveSeparator sepOpt) false true false
            updatedChunks)) = .ok content
    rw [except_bind_ok]
    show Except.ok (jsJoin (effectiveSeparator sepOpt)
        (((assembleChunks false
          (((jsSplit (effectiveSeparator sepOpt) content).reverse).map .str)).reverse).map
            strOf)) = Except.ok content
    rw [assembleChunks_map_str, ← List.map_reverse, List.reverse_reverse,
      map_strOf_map_str, jsJoin_jsSplit (effectiveSeparator sepOpt) content hsep]

end Rwfs
